import Mathlib

/-!
Verification of the EBS (Evidence-Based Scheduling) core, a shallow
embedding of the Rust source `src/main.rs`.

Modelling conventions:
* `f32` values are modelled as exact rationals (`ℚ`); no claim below
  depends on rounding.
* A division whose IEEE result would be non-finite (denominator `0`) is
  modelled as `none` (`divF`); `Option` failure also models Rust panics —
  out-of-bounds `Vec` indexing, `.unwrap()` on an empty iterator, and the
  `usize` underflow / `step_by(0)` assertion — as noted at each definition.
* The `HashMap<String, usize>` of project ids is modelled as an
  association list in insertion order; where the source iterates the map
  in unspecified hash order, the iteration sequence is an explicit
  parameter (`order`).
* The non-reproducible RNG is modelled as an injected stream
  `rng : Nat → Nat`; the `n`-th call of `Iterator::choose` on a list `l`
  returns element `l[rng n % l.length]`.
-/

namespace EBS

/-- One parsed CSV row (`struct Task`); the `task` and `assignee` columns
are unused by the core and omitted. -/
structure Task where
  project : Option String
  estimate : Option ℚ
  actual : Option ℚ

/-- `if let Some(x) = l.get_mut(id) { *x += v } else { l.push(v) }` —
the loader's accumulator update for `all_actuals` and
`only_with_estimates_actuals`.  Note that the `else` branch pushes at the
END of the vector (index `l.length`), whether or not that equals `id`. -/
def addAt (l : List ℚ) (id : Nat) (v : ℚ) : List ℚ :=
  if h : id < l.length then l.set id (l.get ⟨id, h⟩ + v) else l ++ [v]

/-- `if let Some(x) = l.get_mut(id) { x.push(v) } else { l.push(vec![v]) }` —
the update used for `todos` and `simulation_runs`. -/
def pushAt (l : List (List ℚ)) (id : Nat) (v : ℚ) : List (List ℚ) :=
  if h : id < l.length then l.set id (l.get ⟨id, h⟩ ++ [v]) else l ++ [[v]]

/-- The local state of `new_from_file`: the project-id map plus the five
vectors that the record loop fills (`owea` = `only_with_estimates_actuals`). -/
structure LoadState where
  projects : List (String × Nat)
  estimates : List ℚ
  actuals : List ℚ
  owea : List ℚ
  allActuals : List ℚ
  todos : List (List ℚ)

def initState : LoadState := ⟨[], [], [], [], [], []⟩

/-- `*res.projects.entry(project).or_insert(res.projects.keys().len())`:
look the name up; on a miss insert it with the next dense id. -/
def resolveId (ps : List (String × Nat)) (name : String) : List (String × Nat) × Nat :=
  match ps.lookup name with
  | some id => (ps, id)
  | none => (ps ++ [(name, ps.length)], ps.length)

/-- One iteration of the record loop of `new_from_file`: skip rows without
a project, resolve the id, then classify by which of estimate/actual are
present. -/
def loadRecord (st : LoadState) (t : Task) : LoadState :=
  match t.project with
  | none => st
  | some name =>
    let pr := resolveId st.projects name
    let st1 := { st with projects := pr.1 }
    match t.estimate, t.actual with
    | some e, some a =>
      { st1 with estimates := st1.estimates ++ [e],
                 actuals := st1.actuals ++ [a],
                 allActuals := addAt st1.allActuals pr.2 a,
                 owea := addAt st1.owea pr.2 a }
    | some e, none => { st1 with todos := pushAt st1.todos pr.2 e }
    | none, some a => { st1 with allActuals := addAt st1.allActuals pr.2 a }
    | none, none => st1

/-- The loader state after the whole record loop. -/
def loadState (records : List Task) : LoadState :=
  records.foldl loadRecord initState

/-- Checked division: `none` models a non-finite IEEE result of `e / a`
(`±∞` or NaN when `a = 0`). -/
def divF (e a : ℚ) : Option ℚ := if a = 0 then none else some (e / a)

/-- The velocity list as built before sorting:
`zip(estimates, actuals).map(|(e, a)| e / a)`. -/
def velocityPre (records : List Task) : List (Option ℚ) :=
  ((loadState records).estimates.zip (loadState records).actuals).map
    fun p => divF p.1 p.2

/-- `all_actuals[*id] / only_with_estimates_actuals[*id]` for each project:
the outer `none` models the index-out-of-bounds panic, an inner `none` a
non-finite ratio.  (The source iterates `projects.values()` in unspecified
hash order; panicking and the post-sort result are order-independent, so
insertion order is used here.) -/
def bufferRatios (allA owea : List ℚ) : List (String × Nat) → Option (List (Option ℚ))
  | [] => some []
  | p :: ps =>
    match allA.get? p.2, owea.get? p.2 with
    | some x, some y => (bufferRatios allA owea ps).map (fun r => divF x y :: r)
    | _, _ => none

/-- The buffer list as built before sorting. -/
def bufferPre (records : List Task) : Option (List (Option ℚ)) :=
  bufferRatios (loadState records).allActuals (loadState records).owea
    (loadState records).projects

/-- `Vec::sort_by(|a, b| a.partial_cmp(b).unwrap())` on finite values:
a total ascending sort. -/
def sortQ (l : List ℚ) : List ℚ := l.insertionSort (· ≤ ·)

/-- Collect a list of checked values, failing if any is non-finite. -/
def seqOpt : List (Option ℚ) → Option (List ℚ)
  | [] => some []
  | none :: _ => none
  | some x :: rest => (seqOpt rest).map (fun l => x :: l)

/-- The sorted velocity distribution (`res.velocity` after the sort);
`none` when a non-finite ratio was produced. -/
def velocityOf (records : List Task) : Option (List ℚ) :=
  (seqOpt (velocityPre records)).map sortQ

/-- The sorted pooled buffer distribution (`res.buffer` after the sort);
`none` on an out-of-bounds panic or a non-finite ratio. -/
def bufferOf (records : List Task) : Option (List ℚ) :=
  (bufferPre records).bind (fun pre => (seqOpt pre).map sortQ)

/-- `res.todos` after the load. -/
def todosOf (records : List Task) : List (List ℚ) :=
  (loadState records).todos

/-- `res.projects` after the load (insertion order, name ↦ id). -/
def projectsOf (records : List Task) : List (String × Nat) :=
  (loadState records).projects

/-- `l.iter().choose(&mut rng)`: a uniformly chosen element, modelled via
the injected index stream; `none` models `.unwrap()` panicking on an empty
distribution. -/
def choose (rng : Nat → Nat) (l : List ℚ) (n : Nat) : Option ℚ :=
  l.get? (rng n % l.length)

/-- `task_estimates.iter().fold(0.0, |estimate, t| t / choose(velocity) + estimate)`,
threading the draw counter; `none` models a panic (empty velocity
distribution) or a non-finite division (sampled velocity `0`). -/
def taskHours (rng : Nat → Nat) (vel : List ℚ) : List ℚ → ℚ → Nat → Option (ℚ × Nat)
  | [], acc, n => some (acc, n)
  | t :: ts, acc, n =>
    match choose rng vel n with
    | none => none
    | some v => if v = 0 then none else taskHours rng vel ts (t / v + acc) (n + 1)

/-- One project inside one trial: `self.todos[*id]` (panic when out of
bounds), the velocity fold, one buffer draw, then
`t * buffer + remaining`. -/
def projectStep (rng : Nat → Nat) (vel buf : List ℚ) (todos : List (List ℚ))
    (id : Nat) (remaining : ℚ) (n : Nat) : Option (ℚ × Nat) :=
  match todos.get? id with
  | none => none
  | some ts =>
    match taskHours rng vel ts 0 n with
    | none => none
    | some (t, n1) =>
      match choose rng buf n1 with
      | none => none
      | some b => some (t * b + remaining, n1 + 1)

/-- `self.projects.iter().fold(0.0, ...)` — one trial.  `order` is the
hash-map iteration sequence of project ids; each outcome is recorded with
`simulation_runs.get_mut(id)`-else-`push` (`pushAt`). -/
def runTrial (rng : Nat → Nat) (vel buf : List ℚ) (todos : List (List ℚ)) :
    List Nat → ℚ → Nat → List (List ℚ) → Option (List (List ℚ) × Nat)
  | [], _, n, runs => some (runs, n)
  | id :: rest, remaining, n, runs =>
    match projectStep rng vel buf todos id remaining n with
    | none => none
    | some (tr, n1) => runTrial rng vel buf todos rest tr n1 (pushAt runs id tr)

/-- `(0..count).for_each(...)`: the trials in order, threading
`simulation_runs` and the draw counter. -/
def runTrials (rng : Nat → Nat) (vel buf : List ℚ) (todos : List (List ℚ))
    (order : List Nat) : Nat → Nat → List (List ℚ) → Option (List (List ℚ) × Nat)
  | 0, n, runs => some (runs, n)
  | k + 1, n, runs =>
    match runTrial rng vel buf todos order 0 n runs with
    | none => none
    | some (runs1, n1) => runTrials rng vel buf todos order k n1 runs1

/-- `self.simulation_runs` after all `count` trials. -/
def montecarloSim (rng : Nat → Nat) (vel buf : List ℚ) (todos : List (List ℚ))
    (order : List Nat) (count : Nat) : Option (List (List ℚ)) :=
  match runTrials rng vel buf todos order count 0 [] with
  | none => none
  | some (runs, _) => some runs

/-- `iter().skip(start).step_by(step)` for `step ≥ 1`: the elements at
positions `0, step, 2*step, …` of the (already skipped) list. -/
def stepBy (s : Nat) : List ℚ → List ℚ
  | [] => []
  | x :: xs => x :: stepBy s (xs.drop (s - 1))
termination_by l => l.length
decreasing_by simp [List.length_drop]; omega

/-- The per-project trim
`times.sort; times.iter().skip(step - 1).step_by(step)` with the source's
fixed rank count 100 (`step = count / 100`).  `none` models the panic when
`step = 0`: `let start = step - 1` underflows `usize` in a debug build,
and `step_by(0)` asserts in a release build. -/
def percentileTrim (count : Nat) (times : List ℚ) : Option (List ℚ) :=
  let step := count / 100
  if step = 0 then none
  else some (stepBy step ((sortQ times).drop (step - 1)))

/-- The trim applied to every project's outcome sequence. -/
def trimAll (count : Nat) : List (List ℚ) → Option (List (List ℚ))
  | [] => some []
  | ts :: rest =>
    match percentileTrim count ts with
    | none => none
    | some r => (trimAll count rest).map (fun l => r :: l)

def DEFAULT_COUNT : Nat := 1000000

/-- The whole of `montecarlo`: default trial count, `step`/`start`
computed up front (hence the early `none` when `count / 100 = 0`), the
trial loop, then the per-project percentile trim. -/
def montecarlo (rng : Nat → Nat) (vel buf : List ℚ) (todos : List (List ℚ))
    (order : List Nat) (countArg : Option Nat) : Option (List (List ℚ)) :=
  let count := countArg.getD DEFAULT_COUNT
  if count / 100 = 0 then none
  else
    match montecarloSim rng vel buf todos order count with
    | none => none
    | some runs => trimAll count runs

/-- Dates are whole days with day 0 a Monday, so `d % 7` is the weekday
(0 = Monday, …, 4 = Friday, 5 = Saturday, 6 = Sunday).  One fold step of
`dev_days_as_days`: step to the next calendar day; from a Saturday add two
more days, from a Sunday one more. -/
def devStep (d : ℤ) : ℤ :=
  let day := d + 1
  if day % 7 = 5 then day + 2
  else if day % 7 = 6 then day + 1
  else day

/-- `(0..=number).fold(startdate, ...)`: the inclusive range performs
`number + 1` steps. -/
def dev_days_as_days (number : Nat) (startdate : ℤ) : ℤ :=
  devStep^[number + 1] startdate

/-- main's forecast conversion: `(hours / 8.0).ceil() as usize` followed by
`dev_days_as_days`. -/
def projectDate (hours : ℚ) (startdate : ℤ) : ℤ :=
  dev_days_as_days (Int.toNat ⌈hours / 8⌉) startdate

/-- Saturday or Sunday in the day-number encoding. -/
def isWeekend (d : ℤ) : Prop := d % 7 = 5 ∨ d % 7 = 6

instance (d : ℤ) : Decidable (isWeekend d) := by unfold isWeekend; infer_instance

/-- A record is fully observed when the project, the estimate and the
actual are all present. -/
def fullyObserved (t : Task) : Bool :=
  t.project.isSome && t.estimate.isSome && t.actual.isSome

/-- The estimate/actual ratios of the fully observed records, in record
order (the intended content of the velocity distribution before sorting). -/
def velRatios (records : List Task) : List ℚ :=
  (records.filter (fun t => fullyObserved t)).map
    fun t => t.estimate.getD 0 / t.actual.getD 0

/-- The spec's worked scenario: one project "A", fully observed records
(10, 10) and (5, 10), and one backlog record (8). -/
def specScenario : List Task :=
  [⟨some "A", some 10, some 10⟩, ⟨some "A", some 5, some 10⟩, ⟨some "A", some 8, none⟩]

/-- A dataset whose only project has work done but no fully observed
record: one record with an actual and no estimate. -/
def recordsC2 : List Task := [⟨some "A", none, some 5⟩]

/-- Project "A" first (fully observed only), then project "B" with one
backlog record. -/
def recordsC3 : List Task := [⟨some "A", some 10, some 10⟩, ⟨some "B", some 8, none⟩]

/-- One project with one fully observed record and an empty backlog. -/
def recordsC7 : List Task := [⟨some "A", some 10, some 10⟩]

/-- One record that is fully observed with `actual = 0`. -/
def recordsC10 : List Task := [⟨some "A", some 1, some 0⟩]

/-- The constant index stream: every `choose` call picks element 0. -/
def rngZero : Nat → Nat := fun _ => 0

/-- Total version of `choose` for distributions known to be nonempty. -/
def chooseD (rng : Nat → Nat) (l : List ℚ) (n : Nat) : ℚ :=
  l.getD (rng n % l.length) 0

/-- Total version of `taskHours` (no zero velocity is sampled). -/
def taskHoursD (rng : Nat → Nat) (vel : List ℚ) : List ℚ → ℚ → Nat → ℚ
  | [], acc, _ => acc
  | t :: ts, acc, n => taskHoursD rng vel ts (t / chooseD rng vel n + acc) (n + 1)

/-- The `projectOverhead` of the project with id `p` in a trial whose draw
counter stands at `n` when that project starts: its adjusted task hours
times the sampled buffer. -/
def ovAt (rng : Nat → Nat) (vel buf : List ℚ) (todos : List (List ℚ)) (n p : Nat) : ℚ :=
  taskHoursD rng vel (todos.getD p []) 0 n *
    chooseD rng buf (n + (todos.getD p []).length)

/-- The `projectOverhead`s of projects `p, p+1, …, p+cnt-1`, threading the
draw counter (each project consumes one draw per backlog estimate plus one
buffer draw). -/
def overheadsFrom (rng : Nat → Nat) (vel buf : List ℚ) (todos : List (List ℚ)) :
    Nat → Nat → Nat → List ℚ
  | _, 0, _ => []
  | p, cnt + 1, n =>
    ovAt rng vel buf todos n p ::
      overheadsFrom rng vel buf todos (p + 1) cnt (n + (todos.getD p []).length + 1)

/-- The number of random draws consumed by projects `p, …, p+cnt-1` in one
trial. -/
def drawsFrom (todos : List (List ℚ)) : Nat → Nat → Nat
  | _, 0 => 0
  | p, cnt + 1 => (todos.getD p []).length + 1 + drawsFrom todos (p + 1) cnt

/-- The successive `remaining` values recorded for projects
`p, …, p+cnt-1` of one trial, starting from accumulator `rem` and draw
counter `n` (mirrors the value flow of `runTrial`). -/
def trialOuts (rng : Nat → Nat) (vel buf : List ℚ) (todos : List (List ℚ)) :
    Nat → Nat → ℚ → Nat → List ℚ
  | _, 0, _, _ => []
  | p, cnt + 1, rem, n =>
    (ovAt rng vel buf todos n p + rem) ::
      trialOuts rng vel buf todos (p + 1) cnt (ovAt rng vel buf todos n p + rem)
        (n + (todos.getD p []).length + 1)

/-- Append the outcomes `os` at positions `p, p+1, …` of the per-project
run store, using the source's `get_mut(id)`-else-`push` update. -/
def appendEach : List (List ℚ) → Nat → List ℚ → List (List ℚ)
  | runs, _, [] => runs
  | runs, p, o :: os => appendEach (pushAt runs p o) (p + 1) os

/-- The outcome the spec prescribes for project `j` in trial `k`: the sum
of the `projectOverhead`s of project `j` and of every project processed
earlier in that trial (projects iterated in id order `0, …, N-1`, one
accumulator per trial starting at 0, trial `k` starting at draw counter
`k * drawsFrom todos 0 N`). -/
def specOutcome (rng : Nat → Nat) (vel buf : List ℚ) (todos : List (List ℚ))
    (k j : Nat) : ℚ :=
  (overheadsFrom rng vel buf todos 0 (j + 1)
    (k * drawsFrom todos 0 todos.length)).sum

/-- The per-project outcome sequences the spec prescribes after `count`
trials: project `j`'s sequence lists its outcomes for trials
`0, …, count-1` in order, so it has exactly `count` entries. -/
def simSpecRuns (rng : Nat → Nat) (vel buf : List ℚ) (todos : List (List ℚ))
    (count : Nat) : List (List ℚ) :=
  (List.range todos.length).map fun j =>
    (List.range count).map fun k => specOutcome rng vel buf todos k j

/-- A concrete outcome list of length 101 (its values are irrelevant to
the percentile-count question). -/
def listC5 : List ℚ := List.replicate 101 0

/-! ## Helper lemmas -/

theorem devStep_not_weekend (d : ℤ) : ¬ isWeekend (devStep d) := by
  simp only [devStep, isWeekend]
  split_ifs with h1 h2 <;> omega

theorem stepBy_length (s : Nat) (hs : 0 < s) : ∀ (fuel : Nat) (l : List ℚ),
    l.length ≤ fuel → (stepBy s l).length = (l.length + s - 1) / s := by
  intro fuel
  induction fuel with
  | zero =>
    intro l hl
    have hnil : l = [] := List.length_eq_zero.mp (Nat.le_zero.mp hl)
    subst hnil
    simp only [stepBy, List.length_nil]
    exact (Nat.div_eq_of_lt (by omega)).symm
  | succ n ih =>
    intro l hl
    match l with
    | [] =>
      simp only [stepBy, List.length_nil]
      exact (Nat.div_eq_of_lt (by omega)).symm
    | x :: xs =>
      simp only [stepBy, List.length_cons]
      have hdrop : (xs.drop (s - 1)).length = xs.length - (s - 1) :=
        List.length_drop _ _
      have hle : (xs.drop (s - 1)).length ≤ n := by
        rw [hdrop]
        have : xs.length ≤ n := by simpa using hl
        omega
      rw [ih _ hle, hdrop]
      rcases Nat.lt_or_ge xs.length (s - 1) with h | h
      · have h1 : xs.length - (s - 1) = 0 := by omega
        rw [h1, Nat.div_eq_of_lt (by omega)]
        have h2 : xs.length + 1 + s - 1 = xs.length + s := by omega
        rw [h2, Nat.add_div_right _ hs, Nat.div_eq_of_lt (by omega)]
      · have h1 : xs.length - (s - 1) + s - 1 = xs.length := by omega
        rw [h1]
        have h2 : xs.length + 1 + s - 1 = xs.length + s := by omega
        rw [h2, Nat.add_div_right _ hs]

/-! ## Claim theorems -/

/-- C2: the spec requires that a project with zero fully observed records
(buffer denominator zero) be explicitly excluded from the pooled buffer
distribution, so that for `recordsC2` (whose only project has no fully
observed record) the buffer distribution would be empty.  The code instead
indexes `only_with_estimates_actuals[0]`, which was never pushed to, and
panics — modelled by `bufferPre recordsC2 = none`. -/
theorem C2_zero_denominator_project_panics :
    bufferPre recordsC2 = none ∧
    recordsC2.filter (fun t => fullyObserved t) = [] := by
  exact ⟨rfl, rfl⟩

/-- C3: ids are assigned densely in first-seen order ("A" ↦ 0, "B" ↦ 1),
but the id does NOT correctly cross-reference the per-project containers:
project "B"'s single backlog estimate 8 is pushed at index 0 (project
"A"'s slot) because `todos.get_mut(1)` fails on a vector of length 0 and
the fallback `push` appends at the end; index `ID("B") = 1` is out of
bounds. -/
theorem C3_id_misaligns_containers :
    projectsOf recordsC3 = [("A", 0), ("B", 1)] ∧
    todosOf recordsC3 = [[8]] ∧
    (todosOf recordsC3).get? 1 = none := by
  exact ⟨rfl, rfl, rfl⟩

/-- C6: with `trialCount = 50 < 100` the code computes `step = 50 / 100 = 0`
and then executes `let start = step - 1`, a `usize` underflow (debug panic;
in release the wrapped value feeds `step_by(0)`, which asserts).  There is
no explicit configuration check: the step-0 case is reached, not guarded.
`none` models the resulting panic. -/
theorem C6_low_trial_count_panics_unguarded :
    montecarlo rngZero [1] [1] [[8]] [0] (some 50) = none := rfl

/-- C7: a project with an empty backlog is NOT valid input to the
simulator: the loader only creates a `todos` entry for projects with at
least one backlog record, so for `recordsC7` (one project, fully observed
record only) `todos` is empty and the first trial's `self.todos[0]` panics
(`montecarloSim … = none`), instead of completing with outcome 0 as the
claim states. -/
theorem C7_empty_backlog_panics :
    todosOf recordsC7 = [] ∧
    projectsOf recordsC7 = [("A", 0)] ∧
    montecarloSim rngZero [1] [1] (todosOf recordsC7) [0] 1 = none := by
  exact ⟨rfl, rfl, rfl⟩

/-- C8: the calendar projection never returns a weekend date: every fold
step of `dev_days_as_days` lands on a weekday (a Saturday is pushed two
days and a Sunday one day forward, both to Monday), and the fold always
runs at least once. -/
theorem C8_projection_never_weekend (number : Nat) (startdate : ℤ) :
    ¬ isWeekend (dev_days_as_days number startdate) := by
  unfold dev_days_as_days
  rw [Function.iterate_succ_apply']
  exact devStep_not_weekend _

/-- C9: the claim says projecting `requiredHours = 8` from a Friday
returns the following Monday (advance by `ceil(8/8) = 1` business day).
Day 4 is a Friday (`4 % 7 = 4`) and the following Monday is day 7
(`7 % 7 = 0`); the code instead returns day 8, a Tuesday (`8 % 7 = 1`),
because the fold range `0..=number` is inclusive and performs
`number + 1 = 2` business-day advances. -/
theorem C9_friday_projection_returns_tuesday :
    projectDate 8 4 = 8 ∧ (4:ℤ) % 7 = 4 ∧ (7:ℤ) % 7 = 0 ∧ (8:ℤ) % 7 = 1 := by
  refine ⟨?_, by decide, by decide, by decide⟩
  have hceil : Int.toNat ⌈(8:ℚ) / 8⌉ = 1 := by norm_num
  rw [projectDate, hceil]
  decide

/-- C10: the velocity list is NOT filtered before sorting: for a fully
observed record with `actual = 0` the code computes `estimate / actual`,
a non-finite `f32` value (modelled `none`), and that value is handed to
the sort. -/
theorem C10_nonfinite_ratio_enters_sort :
    velocityPre recordsC10 = [none] := rfl

/-- C5 counterexample: with `T = 101 ≥ R = 100` trials the extraction does
not yield exactly 100 values: `step = 101 / 100 = 1`, `start = 0`, and
every one of the 101 sorted outcomes is emitted. -/
theorem C5_counterexample_101_trials :
    (percentileTrim 101 listC5).map List.length = some 101 ∧ (101 : Nat) ≠ 100 := by
  constructor
  · have hlen : listC5.length = 101 := by
      rw [listC5, List.length_replicate]
    have hstep : (101 : Nat) / 100 = 1 := by norm_num
    simp only [percentileTrim, hstep, if_neg (by omega : ¬ (1 : Nat) = 0),
      Option.map_some']
    rw [stepBy_length 1 (by omega) _ _ (le_refl _)]
    simp [sortQ, List.length_insertionSort, hlen]
  · omega

/-- C5 amended: with the code's fixed rank count 100, extraction sorts the
outcomes ascending and emits the elements at sorted positions
`step - 1, 2*step - 1, …` with `step = T / 100`; it yields exactly 100
values whenever 100 divides the trial count `T` (for other `T ≥ 100` it
yields `T / step` values, as the counterexample shows). -/
theorem C5_trim_yields_100_when_divisible (T : Nat) (times : List ℚ)
    (h1 : times.length = T) (h2 : 100 ∣ T) (h3 : 0 < T) :
    (percentileTrim T times).map List.length = some 100 := by
  obtain ⟨m, rfl⟩ := h2
  have hm : 0 < m := by omega
  have hstep : 100 * m / 100 = m := by omega
  simp only [percentileTrim, hstep, if_neg (by omega : ¬ m = 0), Option.map_some']
  rw [stepBy_length m hm _ _ (le_refl _)]
  have hsort : ((sortQ times).drop (m - 1)).length = 100 * m - (m - 1) := by
    rw [List.length_drop, sortQ, List.length_insertionSort, h1]
  rw [hsort]
  have harith : 100 * m - (m - 1) + m - 1 = 100 * m := by omega
  rw [harith, Nat.mul_div_cancel _ hm]

/-- C5 witness: a concrete instance of the amended claim — 200 trial
outcomes trim to exactly 100 values. -/
theorem C5_witness :
    (percentileTrim 200 (List.replicate 200 (0:ℚ))).map List.length = some 100 :=
  C5_trim_yields_100_when_divisible 200 _
    (by rw [List.length_replicate]) (by norm_num) (by norm_num)

/-- C1 counterexample: the recorded-outcome store is NOT correctly indexed
for every hash-map iteration order.  With two projects (ids 0 and 1, todos
`[[8], [4]]`, velocity `[1]`, buffer `[1]`) and iteration order `[1, 0]` —
a legitimate `HashMap` iteration sequence — two trials leave project 0's
slot with three recorded values and project 1's slot with one, instead of
two each: in trial 1 `simulation_runs.get_mut(1)` fails on the empty store
and project 1's outcome is pushed into slot 0.  (Outcome values: project 1
contributes 4, project 0 then records 8·1 + 4 = 12.) -/
theorem C1_counterexample_iteration_order :
    montecarloSim rngZero [1] [1] [[8], [4]] [1, 0] 2 = some [[4, 12, 12], [4]] ∧
    [[(4:ℚ), 12, 12], [4]].map List.length = [3, 1] := by
  constructor
  · norm_num [montecarloSim, runTrials, runTrial, projectStep, taskHours, choose,
      pushAt, rngZero, List.get?]
  · rfl

theorem load_estimates (rs : List Task) : ∀ st : LoadState,
    (rs.foldl loadRecord st).estimates =
      st.estimates ++
        (rs.filter (fun t => fullyObserved t)).map (fun t => t.estimate.getD 0) := by
  induction rs with
  | nil => intro st; simp
  | cons r rs ih =>
    intro st
    rw [List.foldl_cons, ih]
    obtain ⟨p, e, a⟩ := r
    cases p <;> cases e <;> cases a <;>
      simp [loadRecord, fullyObserved, List.filter_cons]

theorem load_actuals (rs : List Task) : ∀ st : LoadState,
    (rs.foldl loadRecord st).actuals =
      st.actuals ++
        (rs.filter (fun t => fullyObserved t)).map (fun t => t.actual.getD 0) := by
  induction rs with
  | nil => intro st; simp
  | cons r rs ih =>
    intro st
    rw [List.foldl_cons, ih]
    obtain ⟨p, e, a⟩ := r
    cases p <;> cases e <;> cases a <;>
      simp [loadRecord, fullyObserved, List.filter_cons]

theorem velocityPre_eq (records : List Task) :
    velocityPre records =
      (records.filter (fun t => fullyObserved t)).map
        (fun t => divF (t.estimate.getD 0) (t.actual.getD 0)) := by
  unfold velocityPre loadState
  rw [load_estimates, load_actuals]
  simp only [initState, List.nil_append, List.zip_map', List.map_map]
  rfl

theorem seqOpt_map_some : ∀ l : List ℚ, seqOpt (l.map some) = some l := by
  intro l
  induction l with
  | nil => rfl
  | cons x xs ih => simp [seqOpt, ih]

theorem velocityOf_sorted_ratios (records : List Task)
    (H : ∀ t ∈ records, fullyObserved t = true → t.actual ≠ some 0) :
    velocityOf records = some (sortQ (velRatios records)) := by
  unfold velocityOf velRatios
  rw [velocityPre_eq]
  have hmap :
      (records.filter (fun t => fullyObserved t)).map
        (fun t => divF (t.estimate.getD 0) (t.actual.getD 0)) =
      ((records.filter (fun t => fullyObserved t)).map
        (fun t => t.estimate.getD 0 / t.actual.getD 0)).map some := by
    rw [List.map_map]
    apply List.map_congr_left
    intro t ht
    have hmem := List.mem_filter.mp ht
    have hfo : fullyObserved t = true := hmem.2
    have hne : t.actual ≠ some 0 := H t hmem.1 hfo
    rcases hsome : t.actual with _ | a
    · exfalso
      rw [fullyObserved, hsome] at hfo
      simp at hfo
    · rw [hsome] at hne
      simp only [Function.comp_apply, hsome, Option.getD_some, divF]
      rw [if_neg (by simpa using hne)]
  rw [hmap, seqOpt_map_some]
  rfl

/-- C4: whenever every fully observed record has a nonzero actual, the
velocity distribution is exactly the ascending sort of the
estimate/actual ratios of the fully observed records (one ratio per such
record, taken in record order), so its length equals the count of fully
observed records and it is sorted; moreover, on the spec's worked
scenario (project "A", records (10,10), (5,10), backlog (8)) the loader
produces velocity distribution `[1/2, 1]` and buffer distribution `[1]`. -/
theorem C4_velocity_distribution (records : List Task)
    (H : ∀ t ∈ records, fullyObserved t = true → t.actual ≠ some 0) :
    velocityOf records = some (sortQ (velRatios records)) ∧
    (sortQ (velRatios records)).length =
      (records.filter (fun t => fullyObserved t)).length ∧
    List.Sorted (· ≤ ·) (sortQ (velRatios records)) ∧
    velocityOf specScenario = some [1/2, 1] ∧
    bufferOf specScenario = some [1] := by
  refine ⟨velocityOf_sorted_ratios records H, ?_, ?_, ?_, ?_⟩
  · rw [sortQ, List.length_insertionSort, velRatios, List.length_map]
  · exact List.sorted_insertionSort _ _
  · norm_num [velocityOf, velocityPre, loadState, loadRecord, resolveId,
      initState, addAt, divF, seqOpt, sortQ, List.insertionSort,
      List.orderedInsert, specScenario]
  · norm_num [bufferOf, bufferPre, bufferRatios, loadState, loadRecord,
      resolveId, initState, addAt, divF, seqOpt, sortQ, List.insertionSort,
      List.orderedInsert, specScenario, List.get?]

/-- C4 witness: the theorem applied to the worked scenario itself. -/
theorem C4_witness :
    velocityOf specScenario = some (sortQ (velRatios specScenario)) ∧
    velocityOf specScenario = some [1/2, 1] ∧
    bufferOf specScenario = some [1] := by
  have h := C4_velocity_distribution specScenario (by decide)
  exact ⟨h.1, h.2.2.2.1, h.2.2.2.2⟩

theorem choose_eq_chooseD (rng : Nat → Nat) (l : List ℚ) (n : Nat) (h : l ≠ []) :
    choose rng l n = some (chooseD rng l n) := by
  have hlen : 0 < l.length := List.length_pos.mpr h
  have hlt : rng n % l.length < l.length := Nat.mod_lt _ hlen
  unfold choose chooseD
  rw [List.getD_eq_get?, List.get?_eq_get hlt]
  rfl

theorem chooseD_mem (rng : Nat → Nat) (l : List ℚ) (n : Nat) (h : l ≠ []) :
    chooseD rng l n ∈ l := by
  have hlen : 0 < l.length := List.length_pos.mpr h
  have hlt : rng n % l.length < l.length := Nat.mod_lt _ hlen
  unfold chooseD
  rw [List.getD_eq_get?, List.get?_eq_get hlt]
  simp only [Option.getD_some]
  exact List.get_mem _ _ _

theorem taskHours_eq (rng : Nat → Nat) (vel : List ℚ) (hv : vel ≠ [])
    (hv0 : (0:ℚ) ∉ vel) : ∀ (ts : List ℚ) (acc : ℚ) (n : Nat),
    taskHours rng vel ts acc n =
      some (taskHoursD rng vel ts acc n, n + ts.length) := by
  intro ts
  induction ts with
  | nil => intro acc n; simp [taskHours, taskHoursD]
  | cons t ts ih =>
    intro acc n
    have hne : chooseD rng vel n ≠ 0 := by
      intro h0
      exact hv0 (h0 ▸ chooseD_mem rng vel n hv)
    simp only [taskHours, choose_eq_chooseD rng vel n hv, if_neg hne, ih,
      taskHoursD, List.length_cons, Option.some.injEq, Prod.mk.injEq]
    exact ⟨trivial, by omega⟩

theorem todos_get?_eq (todos : List (List ℚ)) (j : Nat) (hj : j < todos.length) :
    todos.get? j = some (todos.getD j []) := by
  rw [List.getD_eq_get?, List.get?_eq_get hj]
  rfl

theorem projectStep_eq (rng : Nat → Nat) (vel buf : List ℚ) (todos : List (List ℚ))
    (hv : vel ≠ []) (hv0 : (0:ℚ) ∉ vel) (hb : buf ≠ [])
    (j : Nat) (hj : j < todos.length) (rem : ℚ) (n : Nat) :
    projectStep rng vel buf todos j rem n =
      some (ovAt rng vel buf todos n j + rem,
            n + (todos.getD j []).length + 1) := by
  simp only [projectStep, todos_get?_eq todos j hj,
    taskHours_eq rng vel hv hv0,
    choose_eq_chooseD rng buf _ hb, ovAt]

theorem runTrial_eq (rng : Nat → Nat) (vel buf : List ℚ) (todos : List (List ℚ))
    (hv : vel ≠ []) (hv0 : (0:ℚ) ∉ vel) (hb : buf ≠ []) :
    ∀ (cnt p : Nat), p + cnt ≤ todos.length →
    ∀ (rem : ℚ) (n : Nat) (runs : List (List ℚ)),
    runTrial rng vel buf todos (List.range' p cnt) rem n runs =
      some (appendEach runs p (trialOuts rng vel buf todos p cnt rem n),
            n + drawsFrom todos p cnt) := by
  intro cnt
  induction cnt with
  | zero =>
    intro p hp rem n runs
    simp [List.range', runTrial, trialOuts, appendEach, drawsFrom]
  | succ cnt ih =>
    intro p hp rem n runs
    have hj : p < todos.length := by omega
    rw [List.range'_succ]
    simp only [runTrial, projectStep_eq rng vel buf todos hv hv0 hb p hj rem n,
      ih (p + 1) (by omega), trialOuts, appendEach, drawsFrom,
      Option.some.injEq, Prod.mk.injEq]
    exact ⟨trivial, by omega⟩

theorem set_append_len (pre : List (List ℚ)) (r : List ℚ) (rest : List (List ℚ))
    (v : List ℚ) : (pre ++ r :: rest).set pre.length v = pre ++ v :: rest := by
  induction pre with
  | nil => rfl
  | cons a pre ih => simp [List.set, ih]

theorem get_append_len (pre : List (List ℚ)) (r : List ℚ) (rest : List (List ℚ))
    (h : pre.length < (pre ++ r :: rest).length) :
    (pre ++ r :: rest).get ⟨pre.length, h⟩ = r := by
  induction pre with
  | nil => rfl
  | cons a pre ih => simpa [List.get] using ih _

theorem pushAt_append (pre : List (List ℚ)) (r : List ℚ) (rest : List (List ℚ))
    (v : ℚ) : pushAt (pre ++ r :: rest) pre.length v = pre ++ (r ++ [v]) :: rest := by
  unfold pushAt
  have h : pre.length < (pre ++ r :: rest).length := by simp
  rw [dif_pos h, get_append_len, set_append_len]

theorem pushAt_end (runs : List (List ℚ)) (v : ℚ) :
    pushAt runs runs.length v = runs ++ [[v]] := by
  unfold pushAt
  rw [dif_neg (by omega)]

theorem appendEach_new : ∀ (os : List ℚ) (runs : List (List ℚ)),
    appendEach runs runs.length os = runs ++ os.map (fun o => [o]) := by
  intro os
  induction os with
  | nil => intro runs; simp [appendEach]
  | cons o os ih =>
    intro runs
    rw [appendEach, pushAt_end]
    have h := ih (runs ++ [[o]])
    rw [show (runs ++ [[o]]).length = runs.length + 1 from by simp] at h
    rw [h]
    simp

theorem appendEach_zip : ∀ (os : List ℚ) (runs pre : List (List ℚ)),
    runs.length = os.length →
    appendEach (pre ++ runs) pre.length os =
      pre ++ List.zipWith (fun r o => r ++ [o]) runs os := by
  intro os
  induction os with
  | nil =>
    intro runs pre hlen
    have hruns : runs = [] := List.length_eq_zero.mp hlen
    subst hruns
    simp [appendEach]
  | cons o os ih =>
    intro runs pre hlen
    cases runs with
    | nil => exact absurd hlen (by simp)
    | cons r rs =>
      rw [appendEach, pushAt_append]
      have h2 := ih rs (pre ++ [r ++ [o]]) (by simpa using hlen)
      rw [show pre ++ (r ++ [o]) :: rs = (pre ++ [r ++ [o]]) ++ rs from by simp] at *
      rw [show pre.length + 1 = (pre ++ [r ++ [o]]).length from by simp]
      rw [h2]
      simp [List.zipWith]

theorem trialOuts_length (rng : Nat → Nat) (vel buf : List ℚ)
    (todos : List (List ℚ)) : ∀ (cnt p : Nat) (rem : ℚ) (n : Nat),
    (trialOuts rng vel buf todos p cnt rem n).length = cnt := by
  intro cnt
  induction cnt with
  | zero => intros; rfl
  | succ cnt ih => intro p rem n; simp [trialOuts, ih]

theorem trialOuts_eq_sums (rng : Nat → Nat) (vel buf : List ℚ)
    (todos : List (List ℚ)) : ∀ (cnt p : Nat) (rem : ℚ) (n : Nat),
    trialOuts rng vel buf todos p cnt rem n =
      (List.range cnt).map
        (fun i => (overheadsFrom rng vel buf todos p (i + 1) n).sum + rem) := by
  intro cnt
  induction cnt with
  | zero => intros; rfl
  | succ cnt ih =>
    intro p rem n
    rw [trialOuts, ih, List.range_succ_eq_map]
    simp only [List.map_cons, List.map_map]
    congr 1
    · simp [overheadsFrom, add_zero]
    · apply List.map_congr_left
      intro i _
      simp only [Function.comp_apply, overheadsFrom, List.sum_cons]
      ring

theorem runTrials_spec (rng : Nat → Nat) (vel buf : List ℚ) (todos : List (List ℚ))
    (hv : vel ≠ []) (hv0 : (0:ℚ) ∉ vel) (hb : buf ≠ []) :
    ∀ (K k : Nat),
    runTrials rng vel buf todos (List.range' 0 todos.length) K
        (k * drawsFrom todos 0 todos.length)
        (simSpecRuns rng vel buf todos k) =
      some (simSpecRuns rng vel buf todos (k + K),
            (k + K) * drawsFrom todos 0 todos.length) := by
  intro K
  induction K with
  | zero => intro k; simp [runTrials]
  | succ K ih =>
    intro k
    have hstep := runTrial_eq rng vel buf todos hv hv0 hb todos.length 0
      (by omega) 0 (k * drawsFrom todos 0 todos.length)
      (simSpecRuns rng vel buf todos k)
    simp only [runTrials, hstep]
    have hout : appendEach (simSpecRuns rng vel buf todos k) 0
        (trialOuts rng vel buf todos 0 todos.length 0
          (k * drawsFrom todos 0 todos.length)) =
        simSpecRuns rng vel buf todos (k + 1) := by
      have hzip := appendEach_zip
        (trialOuts rng vel buf todos 0 todos.length 0
          (k * drawsFrom todos 0 todos.length))
        (simSpecRuns rng vel buf todos k) []
        (by simp [simSpecRuns, trialOuts_length])
      simp only [List.nil_append, List.length_nil] at hzip
      rw [hzip, trialOuts_eq_sums]
      simp only [add_zero, simSpecRuns]
      rw [List.zipWith_map, List.zipWith_same]
      apply List.map_congr_left
      intro j _
      rw [List.range_succ, List.map_append]
      simp [specOutcome]
    rw [hout]
    rw [show k * drawsFrom todos 0 todos.length + drawsFrom todos 0 todos.length
        = (k + 1) * drawsFrom todos 0 todos.length from by ring]
    have hrest := ih (k + 1)
    rw [show (k + 1) + K = k + (K + 1) from by omega] at hrest
    exact hrest

theorem montecarloSim_spec (rng : Nat → Nat) (vel buf : List ℚ)
    (todos : List (List ℚ)) (count : Nat)
    (hv : vel ≠ []) (hv0 : (0:ℚ) ∉ vel) (hb : buf ≠ []) (hcount : 1 ≤ count) :
    montecarloSim rng vel buf todos (List.range todos.length) count =
      some (simSpecRuns rng vel buf todos count) := by
  obtain ⟨K, rfl⟩ : ∃ K, count = K + 1 := ⟨count - 1, by omega⟩
  unfold montecarloSim
  rw [List.range_eq_range']
  have hrun : runTrials rng vel buf todos (List.range' 0 todos.length) (K + 1) 0 [] =
      some (simSpecRuns rng vel buf todos (K + 1),
            (K + 1) * drawsFrom todos 0 todos.length) := by
    have hstep := runTrial_eq rng vel buf todos hv hv0 hb todos.length 0
      (by omega) 0 0 []
    simp only [runTrials, hstep]
    have h1 : appendEach [] 0 (trialOuts rng vel buf todos 0 todos.length 0 0) =
        simSpecRuns rng vel buf todos 1 := by
      have hnew := appendEach_new (trialOuts rng vel buf todos 0 todos.length 0 0) []
      simp only [List.length_nil, List.nil_append] at hnew
      rw [hnew, trialOuts_eq_sums]
      simp only [add_zero, List.map_map, simSpecRuns]
      apply List.map_congr_left
      intro j _
      simp [List.range_succ, specOutcome]
    rw [h1]
    rw [show (0:Nat) + drawsFrom todos 0 todos.length
        = 1 * drawsFrom todos 0 todos.length from by ring]
    have hrest := runTrials_spec rng vel buf todos hv hv0 hb K 1
    rw [show 1 + K = K + 1 from by omega] at hrest
    exact hrest
  rw [hrun]

/-- C1 amended: provided the project map iterates the ids in increasing
order `0, …, N-1` and the todos table has one entry per project, each
trial carries a single accumulator initialised to 0 and shared across all
projects: the outcome recorded for project `j` in trial `k` is
`specOutcome rng vel buf todos k j` — the sum of the `projectOverhead`s of
project `j` and of every project processed earlier in that trial — and
after `count ≥ 1` trials (with nonempty distributions and no zero sampled
velocity) every project's outcome sequence holds exactly `count` values,
appended in trial order.  Under other hash-map iteration orders the
recorded outcomes are misplaced and the per-project counts are wrong (see
the counterexample). -/
theorem C1_shared_accumulator_and_counts (rng : Nat → Nat) (vel buf : List ℚ)
    (todos : List (List ℚ)) (count : Nat)
    (hv : vel ≠ []) (hv0 : (0:ℚ) ∉ vel) (hb : buf ≠ []) (hcount : 1 ≤ count) :
    montecarloSim rng vel buf todos (List.range todos.length) count =
      some (simSpecRuns rng vel buf todos count) ∧
    (simSpecRuns rng vel buf todos count).length = todos.length ∧
    ∀ l ∈ simSpecRuns rng vel buf todos count, l.length = count := by
  refine ⟨montecarloSim_spec rng vel buf todos count hv hv0 hb hcount, ?_, ?_⟩
  · simp [simSpecRuns]
  · intro l hl
    simp only [simSpecRuns, List.mem_map] at hl
    obtain ⟨j, _, rfl⟩ := hl
    simp

/-- C1 witness: one project with backlog `[8]`, velocity `[1]`, buffer
`[1]`, identity iteration order, two trials — the theorem applies and the
simulation equals the spec outcomes. -/
theorem C1_witness :
    montecarloSim rngZero [1] [1] [[8]] (List.range 1) 2 =
      some (simSpecRuns rngZero [1] [1] [[8]] 2) :=
  (C1_shared_accumulator_and_counts rngZero [1] [1] [[8]] 2 (by decide) (by decide)
    (by decide) (by decide)).1

end EBS
